import Mathlib

/-!
Verification of the dynamorm query/expression composition engine and
paginated result iterator, shallowly embedded from the Go source.

Conventions of the embedding:
* Go maps (`map[string]string`, `map[string]types.AttributeValue`) are
  association lists with unique keys; assignment `m[k] = v` is `upsert`,
  which replaces an existing binding in place or appends a new one.
  Go's nil map and empty map are both the empty list (the Go code only
  distinguishes them to lazily allocate).
* `fmt.Sprintf("%d", n)` / `%v` rendering of integers is `natDec`/`intDec`,
  a decimal renderer built on `Nat.digits` so that injectivity is provable.
* Pointers to strings (`*string`) are `Option String`.
* Errors are the inductive `DynError`; the error markers of errors.go
  (ErrIndexOutOfRange, ErrEntityDecode, ClientError, ErrEntityNotFound)
  are its constructors.
-/

namespace Dynamorm

/-- DynamoDB attribute values, the subset the library's type switches
produce (string, number-as-string, boolean); from
`types.AttributeValueMemberS/N/BOOL` as used in input.go and part_015. -/
inductive AttributeValue where
  | S (s : String)
  | N (n : String)
  | BOOL (b : Bool)
deriving DecidableEq

/-- A stored item: a mapping from field name to attribute value
(`map[string]types.AttributeValue`). -/
abbrev Item := List (String × AttributeValue)

abbrev NameMap := List (String × String)
abbrev ValueMap := List (String × AttributeValue)

/-- Go map assignment `m[k] = v`: replace the binding in place if the key
exists, else append. -/
def upsert {α : Type} (k : String) (v : α) : List (String × α) → List (String × α)
  | [] => [(k, v)]
  | (k', v') :: rest => if k' = k then (k, v) :: rest else (k', v') :: upsert k v rest

/-- Go map membership test `_, exists := m[k]`. -/
def containsKey {α : Type} (k : String) (m : List (String × α)) : Bool :=
  m.any (fun p => decide (p.1 = k))

def keysOf {α : Type} (m : List (String × α)) : List String :=
  m.map Prod.fst

/-- Structural character-list prefix test (first argument: the candidate
prefix), kernel-reducible unlike String.startsWith. -/
def charsPref : List Char → List Char → Bool
  | [], _ => true
  | _ :: _, [] => false
  | a :: as, b :: bs => if a = b then charsPref as bs else false

/-- Go strings.HasPrefix(s, pre). -/
def strHasPref (s pre : String) : Bool := charsPref pre.data s.data

/-- Big-endian decimal digit characters of n, with structural fuel so the
kernel can evaluate it; fuel n is proved sufficient and the result is
shown equal to rendering `Nat.digits 10 n` (natDecAux_eq_digits below). -/
def natDecAux : Nat → Nat → List Char
  | 0, _ => []
  | fuel + 1, n => if n = 0 then [] else natDecAux fuel (n / 10) ++ [Nat.digitChar (n % 10)]

/-- Decimal rendering of a natural number (Go `fmt.Sprintf("%d", n)` /
`strconv` semantics). -/
def natDec (n : Nat) : String :=
  if n = 0 then "0" else (natDecAux n n).asString

/-- Decimal rendering of a Go int (`%v` / `%d`). -/
def intDec : Int → String
  | Int.ofNat n => natDec n
  | Int.negSucc n => "-" ++ natDec (n + 1)

/-- Scalar values handed to the DSL (`interface{}` restricted to the
cases the library's type switch distinguishes: string, integer, bool). -/
inductive GoVal where
  | vStr (s : String)
  | vInt (i : Int)
  | vBool (b : Bool)
deriving DecidableEq

/-- `attributevalue.Marshal` / the type switch of part_015 and
condition.go: string to S, number to N (decimal text), bool to BOOL.
For these scalar cases Marshal never fails, so the string fallback of
input.go's refFieldValue is unreachable. -/
def marshal : GoVal → AttributeValue
  | GoVal.vStr s => AttributeValue.S s
  | GoVal.vInt i => AttributeValue.N (intDec i)
  | GoVal.vBool b => AttributeValue.BOOL b

/-- Search loop of input.go's uniqueRef: try `ref_c`, `ref_(c+1)`, ... and
return the first candidate that is not a key of the map. The Go loop is
unbounded; here it carries fuel `values.length + 1`, which is proved
sufficient (uniqueRefAux_not_mem below) since the candidates are pairwise
distinct and the map is finite. -/
def uniqueRefAux (values : ValueMap) (ref : String) : Nat → Nat → String
  | 0, c => ref ++ "_" ++ natDec c
  | fuel + 1, c =>
    let newRef := ref ++ "_" ++ natDec c
    if containsKey newRef values then uniqueRefAux values ref fuel (c + 1) else newRef

/-- input.go uniqueRef: if `ref` is unused return it; otherwise start the
counter at 1 plus the number of existing keys with the `ref ++ "_"`
prefix and search upward for an unused suffixed placeholder. -/
def uniqueRef (ref : String) (values : ValueMap) : String :=
  if containsKey ref values then
    let toFind := ref ++ "_"
    let counter := 1 + (values.filter (fun p => strHasPref p.1 toFind)).length
    uniqueRefAux values ref (values.length + 1) counter
  else ref

/-- input.go Input, restricted to the fields the filter DSL reads or
writes (the remaining fields — table name, index, limit, key condition,
start key, scan flag — are never touched by the fragments under
verification). -/
structure Input where
  ExpressionAttributeNames : NameMap := []
  ExpressionAttributeValues : ValueMap := []
  FilterExpression : Option String := none
deriving DecidableEq

/-- input.go (i *Input) refField: allocate/refresh the name placeholder
`#name` and register it. Returns the placeholder and the updated Input
(the Go method mutates the receiver). -/
def Input.refField (i : Input) (name : String) : String × Input :=
  let ref := "#" ++ name
  (ref, { i with ExpressionAttributeNames := upsert ref name i.ExpressionAttributeNames })

/-- input.go (i *Input) refFieldValue: allocate a fresh value placeholder
from base `:name` via uniqueRef and register the marshalled value. -/
def Input.refFieldValue (i : Input) (name : String) (value : GoVal) : String × Input :=
  let ref := uniqueRef (":" ++ name) i.ExpressionAttributeValues
  (ref, { i with ExpressionAttributeValues := upsert ref (marshal value) i.ExpressionAttributeValues })

/-- A sequence of refFieldValue calls on one Input, collecting the
returned value placeholders in order. -/
def applyCalls (i : Input) : List (String × GoVal) → List String × Input
  | [] => ([], i)
  | (f, v) :: rest =>
    let r := i.refFieldValue f v
    let recres := applyCalls r.2 rest
    (r.1 :: recres.1, recres.2)

/-- A Filter mutates the query input (Go: `type Filter func(*Input)`). -/
def Filter : Type := Input → Input

/-- Append one rendered clause to the running filter expression, joining
with AND when text already exists (the shared tail of every fragment:
`expr = append(expr, clause); Join(expr, " AND ")`). -/
def appendClause (i : Input) (clause : String) : Input :=
  let expr :=
    match i.FilterExpression with
    | some f => f ++ " AND " ++ clause
    | none => clause
  { i with FilterExpression := some expr }

/-- Modelled from the spec: the Input-based leaf filter constructor
(`newFilter(format)`), absent from src (only the older QueryInput-based
variant in part_015 and its tests in part_007 survive). Per spec section
4.2 a fragment allocates the name placeholder, allocates one value
placeholder per value, renders the per-operator template, and appends the
clause joined with AND; placeholder allocation follows input.go's
refField/refFieldValue as the BETWEEN fragment (filter_between.go) does. -/
def newFilter (render : String → String → String) (field : String) (value : GoVal) : Filter :=
  fun input =>
    let r1 := input.refField field
    let r2 := r1.2.refFieldValue field value
    appendClause r2.2 (render r1.1 r2.1)

/-- Modelled from the spec: EQ renders the template `#name = :value`. -/
def EQ : String → GoVal → Filter := newFilter (fun n k => n ++ " = " ++ k)

/-- Modelled from the spec: NEQ renders `#name <> :value`. -/
def NEQ : String → GoVal → Filter := newFilter (fun n k => n ++ " <> " ++ k)

/-- Modelled from the spec: LT renders `#name < :value`. -/
def LT : String → GoVal → Filter := newFilter (fun n k => n ++ " < " ++ k)

/-- Modelled from the spec: LTE renders `#name <= :value`. -/
def LTE : String → GoVal → Filter := newFilter (fun n k => n ++ " <= " ++ k)

/-- Modelled from the spec: GT renders `#name > :value`. -/
def GT : String → GoVal → Filter := newFilter (fun n k => n ++ " > " ++ k)

/-- Modelled from the spec: GTE renders `#name >= :value`. -/
def GTE : String → GoVal → Filter := newFilter (fun n k => n ++ " >= " ++ k)

/-- Modelled from the spec: BeginsWith renders `begins_with(#name, :value)`. -/
def BeginsWith : String → GoVal → Filter :=
  newFilter (fun n k => "begins_with(" ++ n ++ ", " ++ k ++ ")")

/-- filter_between.go BETWEEN: `#field BETWEEN :field AND :field_1`,
allocating the two value placeholders left to right. -/
def BETWEEN (field : String) (start finish : GoVal) : Filter :=
  fun input =>
    let r1 := input.refField field
    let r2 := r1.2.refFieldValue field start
    let r3 := r2.2.refFieldValue field finish
    appendClause r3.2 (r1.1 ++ " BETWEEN " ++ r2.1 ++ " AND " ++ r3.1)

/-- The per-child collection step of createOperator's loop: apply the
child filter to a scratch input sharing the accumulated name/value
registries with an empty filter expression, collect its expression text
when nonempty, and carry the registries forward. -/
def opStep (acc : List String × Input) (filter : Filter) : List String × Input :=
  let scratch : Input :=
    { ExpressionAttributeNames := acc.2.ExpressionAttributeNames
      ExpressionAttributeValues := acc.2.ExpressionAttributeValues
      FilterExpression := none }
  let res := filter scratch
  let exprs :=
    match res.FilterExpression with
    | some e => if e = "" then acc.1 else acc.1 ++ [e]
    | none => acc.1
  (exprs,
    { acc.2 with
        ExpressionAttributeNames := res.ExpressionAttributeNames
        ExpressionAttributeValues := res.ExpressionAttributeValues })

/-- filter_op.go createOperator: evaluate every child against a scratch
input that shares the parent's name/value registries but has an empty
filter expression; collect the nonempty child texts; join them with the
operator keyword; parenthesize only when more than one child contributed;
splice into the parent joined with AND when the parent already has text. -/
def createOperator (op : String) (filters : List Filter) : Filter :=
  fun input =>
    let r := filters.foldl opStep ([], input)
    let expressions := r.1
    let out := r.2
    if expressions.length > 0 then
      let expr := String.intercalate (" " ++ op ++ " ") expressions
      let expr := if expressions.length > 1 then "(" ++ expr ++ ")" else expr
      let expr :=
        match out.FilterExpression with
        | some f => f ++ " AND " ++ expr
        | none => expr
      { out with FilterExpression := some expr }
    else out

/-- filter_op.go: OR combines filters with OR logic. -/
def OR : List Filter → Filter := createOperator "OR"

/-- filter_op.go: AND combines filters with AND logic. -/
def AND : List Filter → Filter := createOperator "AND"

/-- Modelled from the spec: the NOT combinator, absent from src (only
its test in part_007 survives). Per spec section 4.4 it is the same
combinator with the literal token NOT used as the infix joiner. -/
def NOT : List Filter → Filter := createOperator "NOT"

/-! ### Output and errors -/

/-- output_test.go (library half): the result of a query or scan
operation. LastEvaluatedKey none means last page; the key itself is an
opaque item-shaped token. -/
structure Output where
  Count : Int := 0
  ScannedCount : Int := 0
  Items : List Item := []
  LastEvaluatedKey : Option Item := none
deriving DecidableEq

/-- The error values and markers of errors.go: ErrIndexOutOfRange,
ErrEntityNotFound, the ErrEntityDecode wrap, the ClientError wrap, and
raw unwrapped errors (the old iterator returns decoder/client errors
unwrapped). -/
inductive DynError where
  | indexOutOfRange
  | entityNotFound
  | entityDecode (msg : String)
  | clientError (msg : String)
  | raw (msg : String)
deriving DecidableEq

/-- The injected decoder collaborator: decodes an item into the target
entity or fails. Entities are represented by their item form. -/
abbrev Decoder := Item → Except String Item

/-- The old iterator hands the decoder result through unwrapped. -/
def decodeRaw (r : Except String Item) : Except DynError Item :=
  match r with
  | Except.ok e => Except.ok e
  | Except.error m => Except.error (DynError.raw m)

/-- The current iterator wraps decoder failures with ErrEntityDecode. -/
def decodeWrapped (r : Except String Item) : Except DynError Item :=
  match r with
  | Except.ok e => Except.ok e
  | Except.error m => Except.error (DynError.entityDecode m)

/-! ### The auto-paginating iterator (old generation)

The accumulating, auto-paginating Query embedded in
remove_option_test.go (second document): Next(ctx) fetches continuation
pages itself, appending fetched items to an accumulated item list. The
remote client is modelled as a finite script of responses consumed in
order; each nextQuery consumes one scripted response. The sync.Mutex of
the Go struct serialises concurrent access and has no sequential
effect. -/

namespace Auto

/-- The old Query struct: accumulated items, cursor index (Go int),
current output, last error, and the scripted remote responses standing
in for the DynamoDB client. -/
structure Query where
  pages : List (Except String Output)
  output : Output
  decoder : Decoder
  index : Int
  items : List Item
  error : Option String

/-- NewQuery: items start as the initial output's page. -/
def NewQuery (pages : List (Except String Output)) (output : Output) (decoder : Decoder) :
    Query :=
  { pages := pages, output := output, decoder := decoder, index := 0,
    items := output.Items, error := none }

def Query.isLastPage (q : Query) : Bool :=
  q.output.LastEvaluatedKey = none

/-- nextQuery: consume the next scripted remote response. On error,
record it in the error slot and report failure; on success replace the
output and append its items (only when nonempty, matching the Go
guard). An empty script reports failure without a fetch (the scenarios
under verification never reach this). -/
def Query.nextQuery (q : Query) : Bool × Query :=
  match q.pages with
  | [] => (false, q)
  | r :: rest =>
    match r with
    | Except.error e => (false, { q with pages := rest, error := some e })
    | Except.ok out =>
      (true,
        { q with
            pages := rest
            output := out
            items := if out.Items.length > 0 then q.items ++ out.Items else q.items })

/-- The for-loop of the old Next: while the current output has a
continuation token, fetch; stop on fetch failure, or as soon as the
cursor is within the accumulated items. Fuel bounds the recursion; one
scripted response is consumed per iteration, so pages.length + 1 fuel is
never exhausted. -/
def nextLoop : Nat → Query → Bool × Query
  | 0, q => (false, q)
  | fuel + 1, q =>
    if q.isLastPage then (false, q)
    else
      let r := q.nextQuery
      if r.1 then
        if r.2.index ≤ (r.2.items.length : Int) then (true, r.2) else nextLoop fuel r.2
      else (false, r.2)

/-- The old Next: advance the cursor; if it stays within the accumulated
items return true immediately, else run the continuation-fetch loop. -/
def Query.Next (q : Query) : Bool × Query :=
  let q1 : Query := { q with index := q.index + 1 }
  if q1.index ≤ (q1.items.length : Int) then (true, q1)
  else nextLoop (q1.pages.length + 1) q1

/-- The old Reset: cursor to zero, clear the error. -/
def Query.Reset (q : Query) : Query :=
  { q with index := 0, error := none }

/-- The old Decode: index out of range unless 0 < index <= len(items);
otherwise decode items[index-1], returning the decoder error
unwrapped. -/
def Query.Decode (q : Query) : Except DynError Item :=
  if q.index ≤ 0 ∨ (q.items.length : Int) < q.index then
    Except.error DynError.indexOutOfRange
  else decodeRaw (q.decoder (q.items.getD (q.index - 1).toNat []))

def Query.Error (q : Query) : Option String :=
  q.error

/-- Test driver: repeatedly Next then Decode, collecting the decoded
items, stopping at the first Next that returns false or Decode that
fails. -/
def drive : Nat → Query → List Item × Query
  | 0, q => ([], q)
  | n + 1, q =>
    let r := q.Next
    if r.1 then
      match r.2.Decode with
      | Except.ok item =>
        let rest := drive n r.2
        (item :: rest.1, rest.2)
      | Except.error _ => ([], r.2)
    else ([], r.2)

/-- Iterated Next: all of n successive Next calls returned true, with
the final state. -/
def nextN : Nat → Query → Bool × Query
  | 0, q => (true, q)
  | n + 1, q =>
    let r := q.Next
    if r.1 then nextN n r.2 else (false, r.2)

end Auto

/-! ### The current iterator (query.go)

The current-generation Query of query.go: Next is a pure cursor
advance, pagination is caller-driven via NextPage, and Last/First decode
page extremes. The scan branch of NextPage is omitted (scan nil — the
query path is modelled); the client is again a finite response
script. -/

/-- query.go Query: cursor over the current Output page. -/
structure Query where
  pages : List (Except String Output)
  output : Output
  decoder : Decoder
  index : Int
  paged : Bool
  err : Option DynError

def NewQuery (pages : List (Except String Output)) (output : Output) (decoder : Decoder) :
    Query :=
  { pages := pages, output := output, decoder := decoder, index := 0,
    paged := false, err := none }

def Query.Count (q : Query) : Int :=
  q.output.Count

def Query.ScannedCount (q : Query) : Int :=
  q.output.ScannedCount

/-- query.go First: decode item 0 of the current page, or index out of
range when the page is empty; decode failures wrapped with
ErrEntityDecode. -/
def Query.First (q : Query) : Except DynError Item :=
  if q.output.Items.length = 0 then Except.error DynError.indexOutOfRange
  else decodeWrapped (q.decoder (q.output.Items.getD 0 []))

/-- query.go Last: decode the final item of the current page, or index
out of range when the page is empty; decode failures wrapped with
ErrEntityDecode. -/
def Query.Last (q : Query) : Except DynError Item :=
  let length := q.output.Items.length
  if length = 0 then Except.error DynError.indexOutOfRange
  else decodeWrapped (q.decoder (q.output.Items.getD (length - 1) []))

/-- query.go Next: advance the cursor by one and report whether it is
still within the current page. Never fetches. -/
def Query.Next (q : Query) : Bool × Query :=
  let q1 : Query := { q with index := q.index + 1 }
  (q1.index ≤ (q1.output.Items.length : Int), q1)

/-- query.go NextPage: first call serves the current page without a
fetch; afterwards, no continuation token means false; otherwise fetch
the next page (one scripted response), on success replace the output and
Reset (cursor zero, error cleared), on failure record the wrapped client
error. An empty script reports false without a fetch. -/
def Query.NextPage (q : Query) : Bool × Query :=
  if !q.paged then (true, { q with paged := true })
  else if q.output.LastEvaluatedKey = none then (false, q)
  else
    match q.pages with
    | [] => (false, q)
    | r :: rest =>
      match r with
      | Except.error e =>
        (false, { q with pages := rest, err := some (DynError.clientError e) })
      | Except.ok out =>
        (true, { q with pages := rest, output := out, index := 0, err := none })

/-- query.go Reset: cursor to zero, clear the error. -/
def Query.Reset (q : Query) : Query :=
  { q with index := 0, err := none }

/-- query.go Decode: index out of range unless 0 < index <=
len(output.Items); otherwise decode the current item, wrapping decode
failures with ErrEntityDecode. -/
def Query.Decode (q : Query) : Except DynError Item :=
  if q.index ≤ 0 ∨ (q.output.Items.length : Int) < q.index then
    Except.error DynError.indexOutOfRange
  else decodeWrapped (q.decoder (q.output.Items.getD (q.index - 1).toNat []))

def Query.Error (q : Query) : Option DynError :=
  q.err

/-- The public iterator operations, for stating invariants over
arbitrary operation sequences. Count, First and Decode read state
without mutating it. -/
inductive Op where
  | next
  | nextPage
  | decode
  | first
  | reset
  | count

def applyOp (q : Query) : Op → Query
  | Op.next => (Query.Next q).2
  | Op.nextPage => (Query.NextPage q).2
  | Op.decode => q
  | Op.first => q
  | Op.reset => Query.Reset q
  | Op.count => q

def runOps (q : Query) (ops : List Op) : Query :=
  ops.foldl applyOp q

/-! ### The fragment grammar

Fragments produced by the DSL constructors: the single-value leaves
(EQ/NEQ/LT/LTE/GT/GTE/BeginsWith), BETWEEN, and boolean compositions.
Used to state and prove properties over every fragment. -/

/-- The leaf operator kinds of the fragment DSL. -/
inductive LeafOp where
  | eq
  | neq
  | lt
  | lte
  | gt
  | gte
  | beginsWith

/-- The per-operator clause templates of the leaf constructors. -/
def renderOf : LeafOp → String → String → String
  | LeafOp.eq => fun n k => n ++ " = " ++ k
  | LeafOp.neq => fun n k => n ++ " <> " ++ k
  | LeafOp.lt => fun n k => n ++ " < " ++ k
  | LeafOp.lte => fun n k => n ++ " <= " ++ k
  | LeafOp.gt => fun n k => n ++ " > " ++ k
  | LeafOp.gte => fun n k => n ++ " >= " ++ k
  | LeafOp.beginsWith => fun n k => "begins_with(" ++ n ++ ", " ++ k ++ ")"

mutual
/-- A fragment of the filter DSL. -/
inductive Frag where
  | leaf (op : LeafOp) (field : String) (value : GoVal)
  | betw (field : String) (v1 v2 : GoVal)
  | comp (op : String) (children : FragList)

/-- A list of fragments (mutual with Frag for structural recursion). -/
inductive FragList where
  | nil
  | cons (f : Frag) (fs : FragList)
end

mutual
/-- The Filter a fragment denotes, through the actual constructors. -/
def denote : Frag → Filter
  | Frag.leaf op field value => newFilter (renderOf op) field value
  | Frag.betw field v1 v2 => BETWEEN field v1 v2
  | Frag.comp op cs => createOperator op (denoteList cs)

def denoteList : FragList → List Filter
  | FragList.nil => []
  | FragList.cons f fs => denote f :: denoteList fs
end

mutual
/-- Characterisation of a fragment's effect: the expression text it
contributes when applied to a scratch input with empty filter
expression (none when it contributes nothing), together with the
updated name/value registries. -/
def fragEval : Frag → NameMap → ValueMap → Option String × NameMap × ValueMap
  | Frag.leaf op field value, ns, vs =>
    let i : Input := { ExpressionAttributeNames := ns, ExpressionAttributeValues := vs,
                       FilterExpression := none }
    let r1 := i.refField field
    let r2 := r1.2.refFieldValue field value
    (some (renderOf op r1.1 r2.1), r2.2.ExpressionAttributeNames, r2.2.ExpressionAttributeValues)
  | Frag.betw field v1 v2, ns, vs =>
    let i : Input := { ExpressionAttributeNames := ns, ExpressionAttributeValues := vs,
                       FilterExpression := none }
    let r1 := i.refField field
    let r2 := r1.2.refFieldValue field v1
    let r3 := r2.2.refFieldValue field v2
    (some (r1.1 ++ " BETWEEN " ++ r2.1 ++ " AND " ++ r3.1),
      r3.2.ExpressionAttributeNames, r3.2.ExpressionAttributeValues)
  | Frag.comp op cs, ns, vs =>
    let r := fragEvalList cs ns vs
    if r.1.length > 0 then
      let e := String.intercalate (" " ++ op ++ " ") r.1
      (some (if r.1.length > 1 then "(" ++ e ++ ")" else e), r.2)
    else (none, r.2)

/-- The texts contributed by a list of child fragments, each evaluated
against a scratch sharing the running registries, empty texts skipped
(mirroring the collection loop of createOperator). -/
def fragEvalList : FragList → NameMap → ValueMap → List String × NameMap × ValueMap
  | FragList.nil, ns, vs => ([], ns, vs)
  | FragList.cons f fs, ns, vs =>
    let r := fragEval f ns vs
    let texts :=
      match r.1 with
      | some e => if e = "" then [] else [e]
      | none => []
    let rest := fragEvalList fs r.2.1 r.2.2
    (texts ++ rest.1, rest.2)
end

/-- Splicing a contributed text into a parent filter expression: nothing
contributed leaves the parent unchanged; otherwise join with AND when
the parent already has text. -/
def splice : Option String → Option String → Option String
  | p, none => p
  | some p, some t => some (p ++ " AND " ++ t)
  | none, some t => some t

/-- Wrap a fragment in single-child compositions, outermost first. -/
def wrapOps (ops : List String) (f : Frag) : Frag :=
  ops.foldr (fun o g => Frag.comp o (FragList.cons g FragList.nil)) f

/-! ### Concrete scenario states (used by witnesses and counterexamples) -/

def sampleItem (s : String) : Item := [("id", AttributeValue.S s)]

/-- An exhausted auto-paginating iterator (3 items consumed) whose next
scripted remote response is a failure. -/
def failState : Auto.Query :=
  { pages := [Except.error "boom"]
    output := { Count := 3, ScannedCount := 3
                Items := [sampleItem "A", sampleItem "B", sampleItem "C"]
                LastEvaluatedKey := some (sampleItem "k") }
    decoder := Except.ok
    index := 3
    items := [sampleItem "A", sampleItem "B", sampleItem "C"]
    error := none }

/-- A fresh auto-paginating iterator over an empty first page with a
continuation token, whose remote store scripts an empty tokened page and
then a one-item final page. -/
def emptyPagesState : Auto.Query :=
  Auto.NewQuery
    [Except.ok { Count := 0, ScannedCount := 0, Items := []
                 LastEvaluatedKey := some (sampleItem "k2") },
     Except.ok { Count := 1, ScannedCount := 1, Items := [sampleItem "A"]
                 LastEvaluatedKey := none }]
    { Count := 0, ScannedCount := 0, Items := []
      LastEvaluatedKey := some (sampleItem "k1") }
    Except.ok

/-- A fresh current-generation iterator over an empty single page. -/
def freshEmptyQuery : Query :=
  NewQuery [] { Count := 0, ScannedCount := 0, Items := [], LastEvaluatedKey := none }
    Except.ok

/-- A current-generation iterator over a one-item page whose decoder
always fails. -/
def singletonQuery : Query :=
  NewQuery [] { Count := 1, ScannedCount := 1, Items := [sampleItem "X"]
                LastEvaluatedKey := none }
    (fun _ => Except.error "bad")

/-- A fresh auto-paginating iterator over a one-item single page. -/
def withinState : Auto.Query :=
  Auto.NewQuery [] { Count := 1, ScannedCount := 1, Items := [sampleItem "A"]
                     LastEvaluatedKey := none }
    Except.ok

/-! ## Theorems -/

/-! ### Decimal rendering: agreement with Nat.digits and injectivity -/

theorem natDecAux_eq_digits (fuel : Nat) :
    ∀ n : Nat, n ≤ fuel → natDecAux fuel n = (Nat.digits 10 n).reverse.map Nat.digitChar := by
  induction fuel with
  | zero =>
    intro n h
    have hn : n = 0 := Nat.le_zero.mp h
    subst hn
    simp [natDecAux]
  | succ fuel ih =>
    intro n h
    by_cases hn : n = 0
    · subst hn; simp [natDecAux]
    · have h10 : (1 : Nat) < 10 := by norm_num
      have hdiv : n / 10 ≤ fuel := by
        have : n / 10 < n := Nat.div_lt_self (Nat.pos_of_ne_zero hn) (by norm_num)
        omega
      rw [natDecAux, if_neg hn, ih (n / 10) hdiv,
        Nat.digits_def' h10 (Nat.pos_of_ne_zero hn), List.reverse_cons, List.map_append]
      rfl

theorem digitChar_inj_lt10 :
    ∀ x < 10, ∀ y < 10, Nat.digitChar x = Nat.digitChar y → x = y := by decide

theorem map_digitChar_inj :
    ∀ l1 l2 : List Nat, (∀ x ∈ l1, x < 10) → (∀ x ∈ l2, x < 10) →
      l1.map Nat.digitChar = l2.map Nat.digitChar → l1 = l2 := by
  intro l1
  induction l1 with
  | nil => intro l2 _ _ h; cases l2 <;> simp_all
  | cons a as ih =>
    intro l2 h1 h2 h
    cases l2 with
    | nil => simp at h
    | cons b bs =>
      simp only [List.map_cons, List.cons.injEq] at h
      have hab : a = b :=
        digitChar_inj_lt10 a (h1 a (List.mem_cons_self a as)) b
          (h2 b (List.mem_cons_self b bs)) h.1
      have hrest : as = bs :=
        ih bs (fun x hx => h1 x (List.mem_cons_of_mem a hx))
          (fun x hx => h2 x (List.mem_cons_of_mem b hx)) h.2
      rw [hab, hrest]

theorem asString_inj : ∀ l1 l2 : List Char, l1.asString = l2.asString → l1 = l2 := by
  intro l1 l2 h
  have := congrArg String.data h
  simpa [List.asString] using this

theorem digits_render_inj (a b : Nat)
    (h : (Nat.digits 10 a).reverse.map Nat.digitChar =
      (Nat.digits 10 b).reverse.map Nat.digitChar) : a = b := by
  have hd : (Nat.digits 10 a).reverse = (Nat.digits 10 b).reverse :=
    map_digitChar_inj _ _
      (fun x hx => Nat.digits_lt_base (by norm_num) (List.mem_reverse.mp hx))
      (fun x hx => Nat.digits_lt_base (by norm_num) (List.mem_reverse.mp hx)) h
  have hdig : Nat.digits 10 a = Nat.digits 10 b := List.reverse_injective hd
  have := congrArg (Nat.ofDigits 10) hdig
  rwa [Nat.ofDigits_digits, Nat.ofDigits_digits] at this

theorem natDec_zero_ne_pos (b : Nat) (hb : b ≠ 0) : natDec 0 ≠ natDec b := by
  intro h
  rw [natDec, natDec, if_pos rfl, if_neg hb, natDecAux_eq_digits b b (le_refl b)] at h
  have hdata := congrArg String.data h
  simp only [List.asString] at hdata
  cases hrev : (Nat.digits 10 b).reverse with
  | nil => rw [hrev] at hdata; simp at hdata
  | cons d rest =>
    rw [hrev] at hdata
    simp only [List.map_cons] at hdata
    have hd0 : ('0' : Char) = Nat.digitChar d := by
      have := congrArg (fun l => List.headD l ' ') hdata
      simpa using this
    have hrest : rest = [] := by
      have := congrArg List.length hdata
      simp at this
      exact this
    have hdlt : d < 10 := by
      have hmem : d ∈ Nat.digits 10 b := by
        have : d ∈ (Nat.digits 10 b).reverse := by rw [hrev]; exact List.mem_cons_self d rest
        exact List.mem_reverse.mp this
      exact Nat.digits_lt_base (by norm_num) hmem
    have hd : (0 : Nat) = d := digitChar_inj_lt10 0 (by norm_num) d hdlt hd0
    have hdig : Nat.digits 10 b = [0] := by
      have := congrArg List.reverse hrev
      rw [List.reverse_reverse] at this
      rw [this, hrest, ← hd]
      rfl
    have := congrArg (Nat.ofDigits 10) hdig
    rw [Nat.ofDigits_digits] at this
    simp [Nat.ofDigits] at this
    exact hb this

theorem natDec_inj : Function.Injective natDec := by
  intro a b h
  by_cases ha : a = 0 <;> by_cases hb : b = 0
  · rw [ha, hb]
  · exact absurd (ha ▸ h) (natDec_zero_ne_pos b hb)
  · exact absurd (hb ▸ h.symm) (natDec_zero_ne_pos a ha)
  · rw [natDec, natDec, if_neg ha, if_neg hb,
      natDecAux_eq_digits a a (le_refl a), natDecAux_eq_digits b b (le_refl b)] at h
    exact digits_render_inj a b (asString_inj _ _ h)

/-! ### uniqueRef: freshness, shape, and the reference allocator -/

theorem containsKey_iff_mem {α : Type} (k : String) (m : List (String × α)) :
    containsKey k m = true ↔ k ∈ keysOf m := by
  simp only [containsKey, keysOf, List.any_eq_true, decide_eq_true_eq, List.mem_map]

theorem cand_inj (ref : String) :
    Function.Injective (fun m : Nat => ref ++ "_" ++ natDec m) := by
  intro x y h
  apply natDec_inj
  have hd := congrArg String.data h
  simp only [String.data_append] at hd
  have := List.append_cancel_left hd
  exact String.ext this

theorem uniqueRefAux_shape (values : ValueMap) (ref : String) :
    ∀ (fuel c : Nat), ∃ m, uniqueRefAux values ref fuel c = ref ++ "_" ++ natDec m := by
  intro fuel
  induction fuel with
  | zero => intro c; exact ⟨c, rfl⟩
  | succ fuel ih =>
    intro c
    by_cases hc : containsKey (ref ++ "_" ++ natDec c) values
    · simpa [uniqueRefAux, hc] using ih (c + 1)
    · exact ⟨c, by simp [uniqueRefAux, hc]⟩

theorem uniqueRefAux_free (values : ValueMap) (ref : String) :
    ∀ (fuel c : Nat),
      (∃ k, k < fuel ∧ containsKey (ref ++ "_" ++ natDec (c + k)) values = false) →
      containsKey (uniqueRefAux values ref fuel c) values = false := by
  intro fuel
  induction fuel with
  | zero => intro c ⟨k, hk, _⟩; exact absurd hk (Nat.not_lt_zero k)
  | succ fuel ih =>
    intro c ⟨k, hk, hfree⟩
    by_cases hc : containsKey (ref ++ "_" ++ natDec c) values = true
    · simp only [uniqueRefAux, hc, if_true]
      apply ih (c + 1)
      cases k with
      | zero => rw [Nat.add_zero] at hfree; rw [hfree] at hc; exact absurd hc (by simp)
      | succ k' =>
        refine ⟨k', by omega, ?_⟩
        have harith : c + 1 + k' = c + (k' + 1) := by omega
        rw [harith]
        exact hfree
    · have hcf : containsKey (ref ++ "_" ++ natDec c) values = false :=
        Bool.eq_false_iff.mpr hc
      simp [uniqueRefAux, hcf]

theorem exists_free_candidate (values : ValueMap) (ref : String) (c : Nat) :
    ∃ k, k < values.length + 1 ∧
      containsKey (ref ++ "_" ++ natDec (c + k)) values = false := by
  by_contra hcon
  push_neg at hcon
  have hall : ∀ k, k < values.length + 1 →
      (ref ++ "_" ++ natDec (c + k)) ∈ keysOf values := by
    intro k hk
    have h1 := hcon k hk
    have h2 : containsKey (ref ++ "_" ++ natDec (c + k)) values = true :=
      Bool.ne_false_iff.mp h1
    exact (containsKey_iff_mem _ _).mp h2
  have hgInj : Function.Injective (fun k : Nat => ref ++ "_" ++ natDec (c + k)) := by
    intro x y h
    have hxy : c + x = c + y := cand_inj ref h
    omega
  have hnd : ((List.range (values.length + 1)).map
      (fun k => ref ++ "_" ++ natDec (c + k))).Nodup :=
    List.Nodup.map hgInj (List.nodup_range _)
  have hsub : ∀ x ∈ (List.range (values.length + 1)).map
      (fun k => ref ++ "_" ++ natDec (c + k)), x ∈ keysOf values := by
    intro x hx
    rw [List.mem_map] at hx
    obtain ⟨k, hk, rfl⟩ := hx
    exact hall k (List.mem_range.mp hk)
  have h1 : ((List.range (values.length + 1)).map
      (fun k => ref ++ "_" ++ natDec (c + k))).length = values.length + 1 := by simp
  have h2 := List.toFinset_card_of_nodup hnd
  have h3 : ((List.range (values.length + 1)).map
      (fun k => ref ++ "_" ++ natDec (c + k))).toFinset ⊆ (keysOf values).toFinset := by
    intro x hx
    rw [List.mem_toFinset] at hx
    rw [List.mem_toFinset]
    exact hsub x hx
  have h4 := Finset.card_le_card h3
  have h5 := (keysOf values).toFinset_card_le
  have h6 : (keysOf values).length = values.length := by simp [keysOf]
  omega

theorem uniqueRef_free (ref : String) (values : ValueMap) :
    containsKey (uniqueRef ref values) values = false := by
  by_cases h : containsKey ref values = true
  · simp only [uniqueRef, h, if_true]
    exact uniqueRefAux_free values ref (values.length + 1) _
      (exists_free_candidate values ref _)
  · have hf : containsKey ref values = false := Bool.eq_false_iff.mpr h
    simp [uniqueRef, hf]

theorem uniqueRef_shape (ref : String) (values : ValueMap) :
    uniqueRef ref values = ref ∨ ∃ m, uniqueRef ref values = ref ++ "_" ++ natDec m := by
  by_cases h : containsKey ref values = true
  · right
    simp only [uniqueRef, h, if_true]
    exact uniqueRefAux_shape values ref (values.length + 1) _
  · left
    have hf : containsKey ref values = false := Bool.eq_false_iff.mpr h
    simp [uniqueRef, hf]

/-- Every refFieldValue call returns a placeholder that is not yet a key
of the value map. -/
theorem refFieldValue_fresh (i : Input) (f : String) (v : GoVal) :
    containsKey (i.refFieldValue f v).1 i.ExpressionAttributeValues = false :=
  uniqueRef_free (":" ++ f) i.ExpressionAttributeValues

theorem refFieldValue_shape (i : Input) (f : String) (v : GoVal) :
    (i.refFieldValue f v).1 = ":" ++ f ∨
      ∃ m, (i.refFieldValue f v).1 = ":" ++ f ++ "_" ++ natDec m :=
  uniqueRef_shape (":" ++ f) i.ExpressionAttributeValues

theorem mem_keys_upsert {α : Type} (k k' : String) (v : α) (m : List (String × α)) :
    k ∈ keysOf (upsert k' v m) ↔ k = k' ∨ k ∈ keysOf m := by
  induction m with
  | nil => simp [upsert, keysOf]
  | cons p rest ih =>
    by_cases hp : p.1 = k'
    · simp [upsert, hp, keysOf]
    · simp [upsert, hp, keysOf] at ih ⊢
      tauto

theorem containsKey_upsert {α : Type} (k k' : String) (v : α) (m : List (String × α)) :
    containsKey k (upsert k' v m) = true ↔ k = k' ∨ containsKey k m = true := by
  rw [containsKey_iff_mem, containsKey_iff_mem, mem_keys_upsert]

theorem refFieldValue_mem (i : Input) (f : String) (v : GoVal) :
    containsKey (i.refFieldValue f v).1
      (i.refFieldValue f v).2.ExpressionAttributeValues = true := by
  simp only [Input.refFieldValue]
  exact (containsKey_upsert _ _ _ _).mpr (Or.inl rfl)

theorem refFieldValue_mono (i : Input) (f : String) (v : GoVal) (k : String)
    (h : containsKey k i.ExpressionAttributeValues = true) :
    containsKey k (i.refFieldValue f v).2.ExpressionAttributeValues = true := by
  simp only [Input.refFieldValue]
  exact (containsKey_upsert _ _ _ _).mpr (Or.inr h)

/-- A key already present in the value map is never returned by any
later refFieldValue call of the sequence. -/
theorem applyCalls_avoid (cs : List (String × GoVal)) :
    ∀ (i : Input) (k : String), containsKey k i.ExpressionAttributeValues = true →
      k ∉ (applyCalls i cs).1 := by
  induction cs with
  | nil => intro i k _ hmem; simp [applyCalls] at hmem
  | cons c rest ih =>
    intro i k hk hmem
    simp only [applyCalls, List.mem_cons] at hmem
    cases hmem with
    | inl heq =>
      have hfresh := refFieldValue_fresh i c.1 c.2
      rw [← heq] at hfresh
      rw [hk] at hfresh
      exact absurd hfresh (by simp)
    | inr htail =>
      exact ih _ k (refFieldValue_mono i c.1 c.2 k hk) htail

/-- All placeholders returned by a sequence of refFieldValue calls are
pairwise distinct. -/
theorem applyCalls_nodup (cs : List (String × GoVal)) :
    ∀ i : Input, (applyCalls i cs).1.Nodup := by
  induction cs with
  | nil => intro i; simp [applyCalls]
  | cons c rest ih =>
    intro i
    simp only [applyCalls, List.nodup_cons]
    exact ⟨applyCalls_avoid rest _ _ (refFieldValue_mem i c.1 c.2), ih _⟩

/-! ### Characterisation of fragment application -/

mutual
/-- Applying a fragment to an input updates the registries exactly as
fragEval computes and splices the contributed text into the filter
expression. -/
theorem denote_char (f : Frag) (input : Input) :
    denote f input =
      { ExpressionAttributeNames :=
          (fragEval f input.ExpressionAttributeNames input.ExpressionAttributeValues).2.1
        ExpressionAttributeValues :=
          (fragEval f input.ExpressionAttributeNames input.ExpressionAttributeValues).2.2
        FilterExpression :=
          splice input.FilterExpression
            (fragEval f input.ExpressionAttributeNames input.ExpressionAttributeValues).1 } := by
  cases f with
  | leaf op field value =>
    cases hF : input.FilterExpression <;>
      simp [denote, newFilter, fragEval, appendClause, splice, Input.refField,
        Input.refFieldValue, hF]
  | betw field v1 v2 =>
    cases hF : input.FilterExpression <;>
      simp [denote, BETWEEN, fragEval, appendClause, splice, Input.refField,
        Input.refFieldValue, hF]
  | comp op cs =>
    rw [denote, createOperator]
    rw [foldl_char cs [] input]
    simp only [List.nil_append]
    rcases ht : (fragEvalList cs input.ExpressionAttributeNames
        input.ExpressionAttributeValues).1 with _ | ⟨e, rest⟩
    · simp [fragEval, ht, splice]
    · simp only [fragEval, ht]
      cases hF : input.FilterExpression <;>
        simp [splice, hF, List.length_cons]

/-- The collection loop of createOperator over denoted child fragments
accumulates exactly the fragEvalList texts and registries. -/
theorem foldl_char (fs : FragList) :
    ∀ (acc : List String) (input : Input),
      List.foldl opStep (acc, input) (denoteList fs) =
        (acc ++ (fragEvalList fs input.ExpressionAttributeNames
            input.ExpressionAttributeValues).1,
         { input with
             ExpressionAttributeNames :=
               (fragEvalList fs input.ExpressionAttributeNames
                 input.ExpressionAttributeValues).2.1
             ExpressionAttributeValues :=
               (fragEvalList fs input.ExpressionAttributeNames
                 input.ExpressionAttributeValues).2.2 }) := by
  cases fs with
  | nil =>
    intro acc input
    simp [denoteList, fragEvalList]
  | cons f fs' =>
    intro acc input
    have hd := denote_char f
      { ExpressionAttributeNames := input.ExpressionAttributeNames
        ExpressionAttributeValues := input.ExpressionAttributeValues
        FilterExpression := none }
    simp only [denoteList, List.foldl_cons]
    rcases ht : (fragEval f input.ExpressionAttributeNames
        input.ExpressionAttributeValues).1 with _ | e
    · rw [show opStep (acc, input) (denote f) =
          (acc, { input with
            ExpressionAttributeNames :=
              (fragEval f input.ExpressionAttributeNames
                input.ExpressionAttributeValues).2.1
            ExpressionAttributeValues :=
              (fragEval f input.ExpressionAttributeNames
                input.ExpressionAttributeValues).2.2 }) from by
        simp [opStep, hd, ht, splice]]
      rw [foldl_char fs' acc _]
      simp [fragEvalList, ht]
    · by_cases he : e = ""
      · rw [show opStep (acc, input) (denote f) =
            (acc, { input with
              ExpressionAttributeNames :=
                (fragEval f input.ExpressionAttributeNames
                  input.ExpressionAttributeValues).2.1
              ExpressionAttributeValues :=
                (fragEval f input.ExpressionAttributeNames
                  input.ExpressionAttributeValues).2.2 }) from by
          simp [opStep, hd, ht, splice, he]]
        rw [foldl_char fs' acc _]
        simp [fragEvalList, ht, he]
      · rw [show opStep (acc, input) (denote f) =
            (acc ++ [e], { input with
              ExpressionAttributeNames :=
                (fragEval f input.ExpressionAttributeNames
                  input.ExpressionAttributeValues).2.1
              ExpressionAttributeValues :=
                (fragEval f input.ExpressionAttributeNames
                  input.ExpressionAttributeValues).2.2 }) from by
          simp [opStep, hd, ht, splice, he]]
        rw [foldl_char fs' (acc ++ [e]) _]
        simp [fragEvalList, ht, he]
end

theorem append_ne_empty_right (a b : String) (hb : b ≠ "") : a ++ b ≠ "" := by
  intro h
  have hd := congrArg String.data h
  simp only [String.data_append] at hd
  have hbd : b.data = [] := (List.append_eq_nil.mp hd).2
  exact hb (String.ext hbd)

theorem append_ne_empty_left (a b : String) (ha : a ≠ "") : a ++ b ≠ "" := by
  intro h
  have hd := congrArg String.data h
  simp only [String.data_append] at hd
  have had : a.data = [] := (List.append_eq_nil.mp hd).1
  exact ha (String.ext had)

theorem render_ne_empty (op : LeafOp) (n k : String) : renderOf op n k ≠ "" := by
  cases op <;> simp only [renderOf] <;>
    first
      | exact append_ne_empty_right _ _ (by decide)
      | exact append_ne_empty_left _ _ (append_ne_empty_right _ _ (by decide))

theorem intercalate_single (s t : String) : String.intercalate s [t] = t := rfl

mutual
/-- A fragment never contributes the empty string as its text. -/
theorem fragEval_texts_ne_empty (f : Frag) (ns : NameMap) (vs : ValueMap) :
    ∀ e, (fragEval f ns vs).1 = some e → e ≠ "" := by
  cases f with
  | leaf op field value =>
    intro e he
    simp only [fragEval] at he
    injection he with he
    rw [← he]
    exact render_ne_empty op _ _
  | betw field v1 v2 =>
    intro e he
    simp only [fragEval] at he
    injection he with he
    rw [← he]
    exact append_ne_empty_left _ _ (append_ne_empty_left _ _
      (append_ne_empty_left _ _ (append_ne_empty_right _ _ (by decide))))
  | comp op cs =>
    intro e he
    rcases ht : (fragEvalList cs ns vs).1 with _ | ⟨t, rest⟩
    · simp [fragEval, ht] at he
    · have hts := fragEvalList_texts_ne_empty cs ns vs
      rw [ht] at hts
      cases rest with
      | nil =>
        simp [fragEval, ht, intercalate_single] at he
        rw [← he]
        exact hts t (List.mem_singleton_self t)
      | cons t2 rest2 =>
        simp only [fragEval, ht] at he
        rw [if_pos (by simp)] at he
        injection he with he
        rw [if_pos (by simp)] at he
        rw [← he]
        exact append_ne_empty_right _ _ (by decide)

/-- No text contributed by a fragment list is the empty string. -/
theorem fragEvalList_texts_ne_empty (fs : FragList) (ns : NameMap) (vs : ValueMap) :
    ∀ e ∈ (fragEvalList fs ns vs).1, e ≠ "" := by
  cases fs with
  | nil => intro e he; simp [fragEvalList] at he
  | cons f fs' =>
    intro e he
    simp only [fragEvalList] at he
    rcases ht : (fragEval f ns vs).1 with _ | t
    · rw [ht] at he
      simp only [List.nil_append] at he
      exact fragEvalList_texts_ne_empty fs' _ _ e he
    · rw [ht] at he
      by_cases hte : t = ""
      · simp only [hte, if_pos rfl, List.nil_append] at he
        exact fragEvalList_texts_ne_empty fs' _ _ e he
      · simp only [if_neg hte, List.singleton_append, List.mem_cons] at he
        cases he with
        | inl h => rw [h]; exact fragEval_texts_ne_empty f ns vs t ht
        | inr h => exact fragEvalList_texts_ne_empty fs' _ _ e h
end

/-- A single-child composition evaluates exactly as its child. -/
theorem fragEval_wrap (o : String) (g : Frag) (ns : NameMap) (vs : ValueMap) :
    fragEval (Frag.comp o (FragList.cons g FragList.nil)) ns vs = fragEval g ns vs := by
  rcases ht : (fragEval g ns vs).1 with _ | e
  · have : fragEval g ns vs = (none, (fragEval g ns vs).2) := by
      rw [← ht]
    rw [this]
    simp [fragEval, fragEvalList, ht]
  · have hne := fragEval_texts_ne_empty g ns vs e ht
    have : fragEval g ns vs = (some e, (fragEval g ns vs).2) := by
      rw [← ht]
    rw [this]
    simp [fragEval, fragEvalList, ht, hne, intercalate_single]

/-- Deeply nested single-child wrappers collapse to the bare fragment. -/
theorem wrap_collapse (ops : List String) (f : Frag) (input : Input) :
    denote (wrapOps ops f) input = denote f input := by
  induction ops with
  | nil => rfl
  | cons o os ih =>
    have h1 : wrapOps (o :: os) f =
        Frag.comp o (FragList.cons (wrapOps os f) FragList.nil) := rfl
    rw [h1, denote_char, fragEval_wrap, ← denote_char, ih]

/-! ### Auto-paginating iterator lemmas -/

theorem Auto.next_within (q : Auto.Query) (h : q.index + 1 ≤ (q.items.length : Int)) :
    q.Next = (true, { q with index := q.index + 1 }) := by
  simp [Auto.Query.Next, h]

theorem Auto.nextN_within :
    ∀ (j : Nat) (q : Auto.Query), q.index + (j : Int) ≤ (q.items.length : Int) →
      Auto.nextN j q = (true, { q with index := q.index + (j : Int) }) := by
  intro j
  induction j with
  | zero => intro q h; simp [Auto.nextN]
  | succ j ih =>
    intro q h
    have h1 : q.index + 1 ≤ (q.items.length : Int) := by push_cast at h ⊢; omega
    simp only [Auto.nextN]
    rw [Auto.next_within q h1]
    simp only [if_pos]
    have h2 : ({ q with index := q.index + 1 } : Auto.Query).index + (j : Int) ≤
        (({ q with index := q.index + 1 } : Auto.Query).items.length : Int) := by
      push_cast at h ⊢
      omega
    rw [ih _ h2]
    have h3 : q.index + 1 + (j : Int) = q.index + ((j : Nat) + 1 : Nat) := by
      push_cast
      ring
    rw [h3]

theorem Auto.nextLoop_pages_le :
    ∀ (fuel : Nat) (q : Auto.Query),
      (Auto.nextLoop fuel q).2.pages.length ≤ q.pages.length := by
  intro fuel
  induction fuel with
  | zero => intro q; simp [Auto.nextLoop]
  | succ fuel ih =>
    intro q
    simp only [Auto.nextLoop]
    by_cases hl : q.isLastPage = true
    · simp [hl]
    · simp only [Bool.not_eq_true] at hl
      simp only [hl, Bool.false_eq_true, if_false]
      cases hp : q.pages with
      | nil => simp [Auto.Query.nextQuery, hp]
      | cons r rest =>
        cases r with
        | error e => simp [Auto.Query.nextQuery, hp]
        | ok out =>
          simp only [Auto.Query.nextQuery, hp, List.length_cons]
          repeat' split
          all_goals
            first
              | exact le_trans (ih _) (by simp)
              | simp

theorem Auto.next_pages_le (q : Auto.Query) :
    (q.Next).2.pages.length ≤ q.pages.length := by
  simp only [Auto.Query.Next]
  by_cases h : q.index + 1 ≤ (q.items.length : Int)
  · simp [h]
  · rw [if_neg h]
    exact Auto.nextLoop_pages_le _ _

/-- A failing continuation fetch during Next: false is returned, the raw
error is recorded, the accumulated items are untouched, and exactly the
one scripted response was consumed. -/
theorem Auto.next_fetch_fails (q : Auto.Query) (e : String)
    (k : Item) (rest : List (Except String Output))
    (hidx : (q.items.length : Int) ≤ q.index)
    (htok : q.output.LastEvaluatedKey = some k)
    (hpg : q.pages = Except.error e :: rest) :
    q.Next = (false,
      { q with index := q.index + 1, pages := rest, error := some e }) := by
  have hnot : ¬ (q.index + 1 ≤ (q.items.length : Int)) := by omega
  simp only [Auto.Query.Next, if_neg hnot]
  simp [Auto.nextLoop, Auto.Query.nextQuery, Auto.Query.isLastPage, htok, hpg]

/-! ### Current-generation iterator lemmas -/

theorem applyOp_index_nonneg (q : Query) (op : Op) (h : 0 ≤ q.index) :
    0 ≤ (applyOp q op).index := by
  cases op with
  | next => simp only [applyOp, Query.Next]; omega
  | nextPage =>
    simp only [applyOp, Query.NextPage]
    by_cases hp : q.paged
    · simp only [hp, Bool.not_true, Bool.false_eq_true, if_false]
      by_cases hk : q.output.LastEvaluatedKey = none
      · simp only [hk, if_pos rfl]; exact h
      · rw [if_neg hk]
        cases q.pages with
        | nil => exact h
        | cons r rest =>
          cases r with
          | error e => simpa using h
          | ok out => simp
    · simp only [hp, Bool.not_false]
      simpa using h
  | decode => exact h
  | first => exact h
  | reset => simp [applyOp, Query.Reset]
  | count => exact h

theorem runOps_index_nonneg (ops : List Op) :
    ∀ q : Query, 0 ≤ q.index → 0 ≤ (runOps q ops).index := by
  induction ops with
  | nil => intro q h; exact h
  | cons op rest ih =>
    intro q h
    exact ih _ (applyOp_index_nonneg q op h)

/-! ### Claim theorems -/

/-- Claim C1: applying AND(OR(EQ(Name,John), EQ(Name,Jane)),
OR(EQ(Name,James), EQ(Name,Jacky))) to a fresh Request renders exactly
((#Name = :Name OR #Name = :Name_1) AND (#Name = :Name_2 OR #Name = :Name_3)),
registers the four pairwise-distinct value placeholders bound to the
four values in left-to-right order, and registers the single shared name
placeholder #Name. -/
theorem claim1_nested_boolean_grouping :
    (AND [OR [EQ "Name" (GoVal.vStr "John"), EQ "Name" (GoVal.vStr "Jane")],
          OR [EQ "Name" (GoVal.vStr "James"), EQ "Name" (GoVal.vStr "Jacky")]]
        {}).FilterExpression =
      some "((#Name = :Name OR #Name = :Name_1) AND (#Name = :Name_2 OR #Name = :Name_3))"
    ∧ (AND [OR [EQ "Name" (GoVal.vStr "John"), EQ "Name" (GoVal.vStr "Jane")],
            OR [EQ "Name" (GoVal.vStr "James"), EQ "Name" (GoVal.vStr "Jacky")]]
          {}).ExpressionAttributeValues =
        [(":Name", AttributeValue.S "John"), (":Name_1", AttributeValue.S "Jane"),
         (":Name_2", AttributeValue.S "James"), (":Name_3", AttributeValue.S "Jacky")]
    ∧ (AND [OR [EQ "Name" (GoVal.vStr "John"), EQ "Name" (GoVal.vStr "Jane")],
            OR [EQ "Name" (GoVal.vStr "James"), EQ "Name" (GoVal.vStr "Jacky")]]
          {}).ExpressionAttributeNames = [("#Name", "Name")]
    ∧ ([":Name", ":Name_1", ":Name_2", ":Name_3"] : List String).Nodup := by
  refine ⟨?_, ?_, ?_, ?_⟩ <;> decide

/-- Claim C3 counterexample: the suffix chosen by refFieldValue is not
always the smallest unused integer. After registering field a_b and then
field a twice, the third call returns :a_2 although the suffix 1 (:a_1)
was never used: the counter scan counts every key with the :a_ prefix,
including :a_b, which is not a numeric suffix. -/
theorem claim3_smallest_suffix_counterexample :
    (applyCalls {}
        [("a_b", GoVal.vStr "x"), ("a", GoVal.vStr "y"), ("a", GoVal.vStr "z")]).1 =
      [":a_b", ":a", ":a_2"]
    ∧ containsKey ":a_1"
        (applyCalls {}
          [("a_b", GoVal.vStr "x"), ("a", GoVal.vStr "y"),
            ("a", GoVal.vStr "z")]).2.ExpressionAttributeValues = false
    ∧ (":a_2" : String) ≠ ":a_1" := by
  refine ⟨?_, ?_, ?_⟩ <;> decide

/-- Claim C3 (amended): every refFieldValue call returns a placeholder
that is not yet a key of the value map; over any call sequence the
returned placeholders are pairwise distinct; each follows the scheme
:field or :field_m with a numeric suffix, the suffix starting at 1 plus
the count of existing keys with the :field_ prefix and advancing to the
first unused candidate (which is the smallest unused integer only when
no other field's placeholders share the prefix). -/
theorem claim3_allocator_amended :
    (∀ (i : Input) (f : String) (v : GoVal),
        containsKey (i.refFieldValue f v).1 i.ExpressionAttributeValues = false)
    ∧ (∀ (i : Input) (cs : List (String × GoVal)), (applyCalls i cs).1.Nodup)
    ∧ (∀ (i : Input) (f : String) (v : GoVal),
        (i.refFieldValue f v).1 = ":" ++ f ∨
          ∃ m, (i.refFieldValue f v).1 = ":" ++ f ++ "_" ++ natDec m) :=
  ⟨refFieldValue_fresh, fun i cs => applyCalls_nodup cs i, refFieldValue_shape⟩

/-- Claim C4: a single-child AND, OR or NOT — and any arbitrarily deep
nesting of single-child wrappers — applied to any fragment produces
exactly the same filter expression, name map and value map as applying
the fragment directly. -/
theorem claim4_single_child_collapse :
    (∀ (f : Frag) (input : Input), AND [denote f] input = denote f input)
    ∧ (∀ (f : Frag) (input : Input), OR [denote f] input = denote f input)
    ∧ (∀ (f : Frag) (input : Input), NOT [denote f] input = denote f input)
    ∧ (∀ (ops : List String) (f : Frag) (input : Input),
        denote (wrapOps ops f) input = denote f input) :=
  ⟨fun f input => wrap_collapse ["AND"] f input,
   fun f input => wrap_collapse ["OR"] f input,
   fun f input => wrap_collapse ["NOT"] f input,
   wrap_collapse⟩

/-- Claim C5: NOT over two or more contributing fragments joins the
children's clauses with the literal infix token NOT (no logical
negation), parenthesizes the joined result, and splices it into the
filter expression like a single fragment; in particular
NOT(EQ(Name,John), LT(Age,40)) renders (#Name = :Name NOT #Age < :Age). -/
theorem claim5_not_infix_joiner :
    (∀ (fs : FragList) (input : Input),
        2 ≤ (fragEvalList fs input.ExpressionAttributeNames
            input.ExpressionAttributeValues).1.length →
        denote (Frag.comp "NOT" fs) input =
          { ExpressionAttributeNames :=
              (fragEvalList fs input.ExpressionAttributeNames
                input.ExpressionAttributeValues).2.1
            ExpressionAttributeValues :=
              (fragEvalList fs input.ExpressionAttributeNames
                input.ExpressionAttributeValues).2.2
            FilterExpression :=
              splice input.FilterExpression
                (some ("(" ++ String.intercalate " NOT "
                  (fragEvalList fs input.ExpressionAttributeNames
                    input.ExpressionAttributeValues).1 ++ ")")) })
    ∧ NOT [EQ "Name" (GoVal.vStr "John"), LT "Age" (GoVal.vInt 40)] {} =
        { ExpressionAttributeNames := [("#Name", "Name"), ("#Age", "Age")]
          ExpressionAttributeValues :=
            [(":Name", AttributeValue.S "John"), (":Age", AttributeValue.N "40")]
          FilterExpression := some "(#Name = :Name NOT #Age < :Age)" } := by
  constructor
  · intro fs input h
    rw [denote_char]
    simp only [fragEval]
    rw [if_pos (by omega :
      0 < (fragEvalList fs input.ExpressionAttributeNames
        input.ExpressionAttributeValues).1.length)]
    rw [if_pos (by omega :
      1 < (fragEvalList fs input.ExpressionAttributeNames
        input.ExpressionAttributeValues).1.length)]
    rfl
  · decide

/-- Claim C5 witness: the general NOT-joining statement instantiated at
the two-fragment example from the test suite. -/
theorem claim5_not_infix_joiner_witness :
    2 ≤ (fragEvalList (FragList.cons (Frag.leaf LeafOp.eq "Name" (GoVal.vStr "John"))
          (FragList.cons (Frag.leaf LeafOp.lt "Age" (GoVal.vInt 40)) FragList.nil))
        ([] : NameMap) ([] : ValueMap)).1.length
    ∧ denote (Frag.comp "NOT"
          (FragList.cons (Frag.leaf LeafOp.eq "Name" (GoVal.vStr "John"))
            (FragList.cons (Frag.leaf LeafOp.lt "Age" (GoVal.vInt 40)) FragList.nil))) {} =
        { ExpressionAttributeNames :=
            (fragEvalList (FragList.cons (Frag.leaf LeafOp.eq "Name" (GoVal.vStr "John"))
                (FragList.cons (Frag.leaf LeafOp.lt "Age" (GoVal.vInt 40)) FragList.nil))
              ([] : NameMap) ([] : ValueMap)).2.1
          ExpressionAttributeValues :=
            (fragEvalList (FragList.cons (Frag.leaf LeafOp.eq "Name" (GoVal.vStr "John"))
                (FragList.cons (Frag.leaf LeafOp.lt "Age" (GoVal.vInt 40)) FragList.nil))
              ([] : NameMap) ([] : ValueMap)).2.2
          FilterExpression :=
            splice (none : Option String)
              (some ("(" ++ String.intercalate " NOT "
                (fragEvalList (FragList.cons (Frag.leaf LeafOp.eq "Name" (GoVal.vStr "John"))
                    (FragList.cons (Frag.leaf LeafOp.lt "Age" (GoVal.vInt 40)) FragList.nil))
                  ([] : NameMap) ([] : ValueMap)).1 ++ ")")) } :=
  ⟨by decide,
    claim5_not_infix_joiner.1
      (FragList.cons (Frag.leaf LeafOp.eq "Name" (GoVal.vStr "John"))
        (FragList.cons (Frag.leaf LeafOp.lt "Age" (GoVal.vInt 40)) FragList.nil)) {}
      (by decide)⟩

set_option maxHeartbeats 1600000 in
/-- Claim C2: for pages of shape (3 items + token, 0 items + token,
2 items + no token), driving the auto-paginating iterator by repeated
Next/Decode yields exactly the 5 items in page order with the empty page
skipped, the subsequent Next returns false, and Error() is nil. -/
theorem claim2_pagination_accumulation (a b c d e : Item) (t1 t2 : Item)
    (c1 s1 c2 s2 c3 s3 : Int) :
    (Auto.drive 6 (Auto.NewQuery
        [Except.ok { Count := c2, ScannedCount := s2, Items := []
                     LastEvaluatedKey := some t2 },
         Except.ok { Count := c3, ScannedCount := s3, Items := [d, e]
                     LastEvaluatedKey := none }]
        { Count := c1, ScannedCount := s1, Items := [a, b, c]
          LastEvaluatedKey := some t1 }
        Except.ok)).1 = [a, b, c, d, e]
    ∧ ((Auto.drive 5 (Auto.NewQuery
        [Except.ok { Count := c2, ScannedCount := s2, Items := []
                     LastEvaluatedKey := some t2 },
         Except.ok { Count := c3, ScannedCount := s3, Items := [d, e]
                     LastEvaluatedKey := none }]
        { Count := c1, ScannedCount := s1, Items := [a, b, c]
          LastEvaluatedKey := some t1 }
        Except.ok)).2.Next).1 = false
    ∧ (Auto.drive 6 (Auto.NewQuery
        [Except.ok { Count := c2, ScannedCount := s2, Items := []
                     LastEvaluatedKey := some t2 },
         Except.ok { Count := c3, ScannedCount := s3, Items := [d, e]
                     LastEvaluatedKey := none }]
        { Count := c1, ScannedCount := s1, Items := [a, b, c]
          LastEvaluatedKey := some t1 }
        Except.ok)).2.Error = none := by
  refine ⟨?_, ?_, ?_⟩ <;>
    simp [Auto.drive, Auto.Query.Next, Auto.nextLoop, Auto.Query.nextQuery,
      Auto.Query.Decode, Auto.NewQuery, Auto.Query.isLastPage, Auto.Query.Error,
      decodeRaw]

/-- Claim C6: when the continuation fetch performed during an
auto-paginating Next fails, Next returns false, Error() returns the
underlying failure, the accumulated items are retained, Reset clears the
error and the cursor, and afterwards every retained item is re-iterated
and decoded without any further fetch. -/
theorem claim6_fetch_failure_retains_items (q : Auto.Query) (e : String) (k : Item)
    (rest : List (Except String Output))
    (hidx : (q.items.length : Int) ≤ q.index)
    (htok : q.output.LastEvaluatedKey = some k)
    (hpg : q.pages = Except.error e :: rest) :
    (q.Next).1 = false
    ∧ (q.Next).2.Error = some e
    ∧ (q.Next).2.items = q.items
    ∧ (q.Next).2.pages = rest
    ∧ ((q.Next).2.Reset).index = 0
    ∧ ((q.Next).2.Reset).error = none
    ∧ ∀ j : Nat, j < q.items.length →
        (Auto.nextN (j + 1) ((q.Next).2.Reset)).1 = true
        ∧ (Auto.nextN (j + 1) ((q.Next).2.Reset)).2.pages = rest
        ∧ (Auto.nextN (j + 1) ((q.Next).2.Reset)).2.Decode =
            decodeRaw (q.decoder (q.items.getD j [])) := by
  have hnext := Auto.next_fetch_fails q e k rest hidx htok hpg
  rw [hnext]
  refine ⟨rfl, rfl, rfl, rfl, rfl, rfl, ?_⟩
  intro j hj
  simp only [Auto.Query.Reset]
  have hb : ({ q with pages := rest, index := 0, error := none } : Auto.Query).index +
      ((j + 1 : Nat) : Int) ≤
      (({ q with pages := rest, index := 0, error := none } : Auto.Query).items.length : Int) := by
    push_cast
    omega
  rw [Auto.nextN_within (j + 1) _ hb]
  refine ⟨rfl, rfl, ?_⟩
  simp only [Auto.Query.Decode]
  rw [if_neg (by push_cast; omega)]
  have htn : (((0 : Int) + ((j + 1 : Nat) : Int)) - 1).toNat = j := by push_cast; omega
  simp only [htn]

/-- Claim C6 witness: the scenario with 3 retained items whose second
fetch fails. -/
theorem claim6_fetch_failure_retains_items_witness :
    (Auto.Query.Next failState).1 = false
    ∧ (Auto.Query.Next failState).2.Error = some "boom"
    ∧ (Auto.Query.Next failState).2.items = failState.items
    ∧ ((Auto.Query.Next failState).2.Reset).error = none :=
  ⟨(claim6_fetch_failure_retains_items failState "boom" (sampleItem "k") []
      (by decide) rfl rfl).1,
   (claim6_fetch_failure_retains_items failState "boom" (sampleItem "k") []
      (by decide) rfl rfl).2.1,
   (claim6_fetch_failure_retains_items failState "boom" (sampleItem "k") []
      (by decide) rfl rfl).2.2.1,
   (claim6_fetch_failure_retains_items failState "boom" (sampleItem "k") []
      (by decide) rfl rfl).2.2.2.2.2.1⟩

/-- Claim C7: Decode returns the index-out-of-range error whenever the
cursor is not strictly within (0, number of items]; in particular before
the first Next estimate and after a Next that returned false, including on a
zero-item page. -/
theorem claim7_decode_bounds (q : Query) :
    (q.index ≤ 0 ∨ (q.output.Items.length : Int) < q.index →
        q.Decode = Except.error DynError.indexOutOfRange)
    ∧ (q.index = 0 → q.Decode = Except.error DynError.indexOutOfRange)
    ∧ ((Query.Next q).1 = false →
        (Query.Next q).2.Decode = Except.error DynError.indexOutOfRange) := by
  refine ⟨?_, ?_, ?_⟩
  · intro h
    simp only [Query.Decode]
    rw [if_pos h]
  · intro h0
    simp only [Query.Decode]
    rw [if_pos (Or.inl (le_of_eq h0))]
  · intro hf
    simp only [Query.Next, decide_eq_false_iff_not, not_le] at hf
    simp only [Query.Decode]
    rw [if_pos (Or.inr (by exact hf))]

/-- Claim C7 witness: a fresh iterator over an empty page fails Decode
before any Next and after a false Next. -/
theorem claim7_decode_bounds_witness :
    freshEmptyQuery.Decode = Except.error DynError.indexOutOfRange
    ∧ (Query.Next freshEmptyQuery).2.Decode = Except.error DynError.indexOutOfRange :=
  ⟨(claim7_decode_bounds freshEmptyQuery).2.1 rfl,
   (claim7_decode_bounds freshEmptyQuery).2.2 (by decide)⟩

/-- Claim C8 counterexample: the cursor index does not stay within
[0, len(items)]: one Next on a fresh iterator over an empty page leaves
the index at 1 while the page has 0 items. -/
theorem claim8_cursor_bound_counterexample :
    (runOps freshEmptyQuery [Op.next]).index = 1
    ∧ ¬ ((runOps freshEmptyQuery [Op.next]).index ≤
        ((runOps freshEmptyQuery [Op.next]).output.Items.length : Int)) := by
  refine ⟨?_, ?_⟩ <;> decide

/-- Claim C8 (amended): over every sequence of public iterator
operations the cursor index stays nonnegative; it is 0 initially and
after a trailing Reset; and whenever Next returns true the index is at
most the number of items. The index can exceed the item count after a
Next that returned false. -/
theorem claim8_cursor_bounds_amended (ops : List Op) (q0 : Query) (h : 0 ≤ q0.index) :
    0 ≤ (runOps q0 ops).index
    ∧ (runOps q0 (ops ++ [Op.reset])).index = 0
    ∧ (∀ (ps : List (Except String Output)) (out : Output) (dec : Decoder),
        (NewQuery ps out dec).index = 0)
    ∧ (∀ q : Query, (Query.Next q).1 = true →
        (Query.Next q).2.index ≤ ((Query.Next q).2.output.Items.length : Int)) := by
  refine ⟨runOps_index_nonneg ops q0 h, ?_, fun _ _ _ => rfl, ?_⟩
  · simp only [runOps, List.foldl_append]
    rfl
  · intro q hq
    simpa [Query.Next] using hq

/-- Claim C8 witness: the amended bounds at one Next on the fresh
empty-page iterator. -/
theorem claim8_cursor_bounds_amended_witness :
    0 ≤ (runOps freshEmptyQuery [Op.next]).index
    ∧ (runOps freshEmptyQuery ([Op.next] ++ [Op.reset])).index = 0 :=
  ⟨(claim8_cursor_bounds_amended [Op.next] freshEmptyQuery (by decide)).1,
   (claim8_cursor_bounds_amended [Op.next] freshEmptyQuery (by decide)).2.1⟩

/-- Claim C9 counterexample: one advance attempt (a single Next) on an
exhausted page consumes two scripted remote responses when the store
returns an empty page with a continuation token before the final page —
more than the one remote call the claim allows. -/
theorem claim9_single_fetch_counterexample :
    emptyPagesState.pages.length = 2
    ∧ (Auto.Query.Next emptyPagesState).2.pages.length = 0
    ∧ ¬ (emptyPagesState.pages.length -
        (Auto.Query.Next emptyPagesState).2.pages.length ≤ 1) := by
  refine ⟨?_, ?_, ?_⟩ <;> decide

/-- Claim C9 (amended): an advance that stays within the accumulated
items triggers no remote call; otherwise a single Next consumes one
scripted response per fetched page — empty tokened pages included — and
never more responses than the store has pages. -/
theorem claim9_advance_fetch_amended (q : Auto.Query) :
    (q.index + 1 ≤ (q.items.length : Int) →
      q.Next = (true, { q with index := q.index + 1 }))
    ∧ (q.Next).2.pages.length ≤ q.pages.length :=
  ⟨Auto.next_within q, Auto.next_pages_le q⟩

/-- Claim C9 witness: a within-page Next leaves the script untouched. -/
theorem claim9_advance_fetch_amended_witness :
    Auto.Query.Next withinState = (true, { withinState with index := withinState.index + 1 })
    ∧ (Auto.Query.Next withinState).2.pages.length ≤ withinState.pages.length :=
  ⟨(claim9_advance_fetch_amended withinState).1 (by decide),
   (claim9_advance_fetch_amended withinState).2⟩

/-- Claim C10: Last decodes the final item of the current page
regardless of the cursor position and without touching the remote
script, fails with the index-out-of-range error on an empty page, and
wraps decoder failures with the entity-decode marker. -/
theorem claim10_last_decodes_final_item (q : Query) :
    (q.output.Items = [] → q.Last = Except.error DynError.indexOutOfRange)
    ∧ (∀ (i : Int) (ps : List (Except String Output)) (pg : Bool) (er : Option DynError),
        Query.Last { q with index := i, pages := ps, paged := pg, err := er } = q.Last)
    ∧ (q.output.Items ≠ [] →
        q.Last = decodeWrapped (q.decoder
          (q.output.Items.getD (q.output.Items.length - 1) []))) := by
  refine ⟨?_, ?_, ?_⟩
  · intro h
    simp [Query.Last, h]
  · intro i ps pg er
    rfl
  · intro h
    have hlen : q.output.Items.length ≠ 0 := fun hl => h (List.length_eq_zero.mp hl)
    simp [Query.Last, hlen]

/-- Claim C10 witness: Last on an empty page errors, and on a one-item
page with a failing decoder returns the wrapped entity-decode error. -/
theorem claim10_last_decodes_final_item_witness :
    freshEmptyQuery.Last = Except.error DynError.indexOutOfRange
    ∧ singletonQuery.Last = decodeWrapped (singletonQuery.decoder
        (singletonQuery.output.Items.getD (singletonQuery.output.Items.length - 1) [])) :=
  ⟨(claim10_last_decodes_final_item freshEmptyQuery).1 rfl,
   (claim10_last_decodes_final_item singletonQuery).2.2 (by decide)⟩

end Dynamorm
